import Mathlib

/-!
Shallow embedding of the `mem` memory store (src/store.rs) and proofs of the
specification claims.

Modelling conventions:
* `f32` values are modelled as `Option ℚ`: `some q` is an ordinary (finite)
  float value, `none` is NaN.  Arithmetic propagates NaN; comparison
  (`f32::partial_cmp`) is undefined (`Option.none`) exactly when a NaN is
  involved, which we track through the boolean strict order `fgt`.
* The backing file is modelled by `FileContent`: a zero-byte file (`empty`),
  a file holding the JSON serialization of a `MemoryDB` (`data db`, relying
  on serde_json round-tripping the structure exactly), or non-empty bytes
  that do not parse (`corrupt`).
* The OpenAI client is modelled by the function the store actually consumes:
  a provider `String → Except Unit (List F)` that either errors (network/API
  failure) or returns a vector.
* Fallible operations return `Outcome α`; the `panicked` constructor marks
  the Rust panics reachable in the translated code: `expect` on `push_row`,
  the shape panic of `Array2::dot`, `expect`/`unwrap` around the score
  comparisons, and out-of-bounds indexing.
-/

set_option maxRecDepth 4000

namespace Mem

/-- Scores and vector entries: `f32` as a rational, with `none` for NaN. -/
abbrev F := Option ℚ

/-- Multiplication of two f32 values, NaN-propagating. -/
def fmul : F → F → F
  | some a, some b => some (a * b)
  | _, _ => none

/-- Addition of two f32 values, NaN-propagating. -/
def fadd : F → F → F
  | some a, some b => some (a + b)
  | _, _ => none

/-- Sum of a list of f32 values (the reduction inside `ndarray`'s dot). -/
def sumF (l : List F) : F := l.foldr fadd (some 0)

/-- Dot product of two vectors, as computed row-by-row by `db.embeddings.dot`. -/
def dotF (xs ys : List F) : F := sumF (List.zipWith fmul xs ys)

/-- Strict greater-than on f32: true iff both sides are non-NaN and the first
is strictly larger (i.e. `partial_cmp` returns `Greater`). -/
def fgt : F → F → Bool
  | some a, some b => decide (b < a)
  | _, _ => false

/-- Does the list contain a NaN value? -/
def hasNan (l : List F) : Bool := l.any fun s => s.isNone

/-- A memory record (struct `Memory` in store.rs). -/
structure Memory where
  value : String
  description : String
deriving DecidableEq

/-- A retrieval result (struct `ScoredMemory` in store.rs). -/
structure ScoredMemory where
  value : String
  description : String
  score : F
deriving DecidableEq

/-- Conversion `Memory::into_scored`. -/
def Memory.into_scored (m : Memory) (score : F) : ScoredMemory :=
  ⟨m.value, m.description, score⟩

/-- The persisted database (struct `MemoryDB`): the record list and the
embedding matrix, kept as its list of rows plus its column count (an
`Array2` carries its shape even when it has zero rows). -/
structure MemoryDB where
  memories : List Memory
  embeddings : List (List F)
  embCols : Nat
deriving DecidableEq

/-- The error taxonomy of the spec (§7). -/
inductive StoreError where
  | ioError : StoreError
  | corruptData : StoreError
  | providerError : StoreError
  | dimensionMismatch : StoreError
deriving DecidableEq

/-- Result of a store operation: a Rust panic, a returned error, or success. -/
inductive Outcome (α : Type) where
  | panicked : Outcome α
  | err : StoreError → Outcome α
  | ok : α → Outcome α
deriving DecidableEq

/-- State of the backing file: zero bytes, a parseable serialized `MemoryDB`,
or non-empty unparseable bytes. -/
inductive FileContent where
  | empty : FileContent
  | data : MemoryDB → FileContent
  | corrupt : FileContent
deriving DecidableEq

/-- Constant `MemoryStore::EMBEDDING_SIZE`. -/
def EMBEDDING_SIZE : Nat := 1536

/-- Loading, `MemoryStore::load_db`: a zero-length file yields a fresh empty database
with a `0 × EMBEDDING_SIZE` matrix; otherwise the contents are parsed, and a
parse failure is surfaced as an error. -/
def load_db : FileContent → Outcome MemoryDB
  | .empty => .ok ⟨[], [], EMBEDDING_SIZE⟩
  | .data db => .ok db
  | .corrupt => .err .corruptData

/-- Saving, `MemoryStore::save_db`: truncates the file and writes the serialized
database, so the new file content is exactly the serialization of `db`. -/
def save_db (db : MemoryDB) : FileContent := .data db

/-- The embedding provider as consumed by the store: text in, vector out or
a network/API failure. -/
abbrev EmbedFn := String → Except Unit (List F)

/-- Adapter call `MemoryStore::embed`: call the provider, then enforce that the returned
vector has exactly `EMBEDDING_SIZE` entries. -/
def embed (f : EmbedFn) (text : String) : Outcome (List F) :=
  match f text with
  | .error _ => .err .providerError
  | .ok v => if v.length = EMBEDDING_SIZE then .ok v else .err .dimensionMismatch

/-- Operation `MemoryStore::insert`: load, embed the description, `push_row` (which
panics when the row length differs from the matrix's column count), append
the record, save.  Returns the resulting file content together with the
operation outcome; on any failure before `save_db` the file is unchanged. -/
def insert (f : EmbedFn) (fs : FileContent) (memory description : String) :
    FileContent × Outcome Unit :=
  match load_db fs with
  | .panicked => (fs, .panicked)
  | .err e => (fs, .err e)
  | .ok db =>
    match embed f description with
    | .panicked => (fs, .panicked)
    | .err e => (fs, .err e)
    | .ok v =>
      if v.length = db.embCols then
        (save_db ⟨db.memories ++ [⟨memory, description⟩], db.embeddings ++ [v], db.embCols⟩,
          .ok ())
      else (fs, .panicked)

/-- Pairs `(index, score)` as produced by `.iter().enumerate()`. -/
def enumIdx : Nat → List F → List (Nat × F)
  | _, [] => []
  | n, s :: rest => (n, s) :: enumIdx (n + 1) rest

/-- One step of `Iterator::max_by`: keep the accumulator only when it is
strictly greater, so on ties the later element wins. -/
def maxStep (acc : Option (Nat × F)) (p : Nat × F) : Option (Nat × F) :=
  match acc with
  | none => some p
  | some q => if fgt q.2 p.2 then some q else some p

/-- Model of `Iterator::max_by` over the enumerated scores: a left fold of `maxStep`;
returns `none` on an empty iterator, and the last maximum on ties. -/
def maxByLast (l : List (Nat × F)) : Option (Nat × F) := l.foldl maxStep none

/-- The per-row dot products `db.embeddings.dot(&query_embedding)`. -/
def scoresOf (db : MemoryDB) (q : List F) : List F :=
  db.embeddings.map fun row => dotF row q

/-- Ranking phase of `get` on a loaded database and query embedding: compute
all dot products, take the `max_by` element (panicking — `expect` — when a
NaN is reached by the comparator, i.e. when some score is NaN and there are
at least two scores, and — `unwrap` — when the iterator is empty), and index
the record list. -/
def rank_get (db : MemoryDB) (q : List F) : Outcome (Option ScoredMemory) :=
  if 2 ≤ (scoresOf db q).length ∧ hasNan (scoresOf db q) = true then .panicked
  else
    match maxByLast (enumIdx 0 (scoresOf db q)) with
    | none => .panicked
    | some (i, s) =>
      match db.memories[i]? with
      | none => .panicked
      | some m => .ok (some (m.into_scored s))

/-- Operation `MemoryStore::get`: load; empty store returns nothing; otherwise embed
the query, check the matrix/vector shape required by `dot` (a mismatch is a
panic in `ndarray`), and run the ranking phase. -/
def get (f : EmbedFn) (fs : FileContent) (description : String) :
    Outcome (Option ScoredMemory) :=
  match load_db fs with
  | .panicked => .panicked
  | .err e => .err e
  | .ok db =>
    if db.memories.isEmpty then .ok none
    else
      match embed f description with
      | .panicked => .panicked
      | .err e => .err e
      | .ok q =>
        if q.length = db.embCols then rank_get db q
        else .panicked

/-- Stable descending insertion: walk past strictly greater scores, so an
element is placed before every element whose score is not strictly greater —
in particular before later elements with an equal score. -/
def insertDesc (p : F × Nat) : List (F × Nat) → List (F × Nat)
  | [] => [p]
  | q :: rest => if fgt q.1 p.1 then q :: insertDesc p rest else p :: q :: rest

/-- Stable sort of `(score, index)` pairs, descending by score.  This is the
unique result of any stable descending sort whose comparator looks only at
the score, hence models `sort_by(|(a, _), (b, _)| b.partial_cmp(a).unwrap())`
on a slice sorted with Rust's stable `sort_by`. -/
def sortDesc (l : List (F × Nat)) : List (F × Nat) := l.foldr insertDesc []

/-- The `(score, original index)` pairs of a collection against a query, in
storage order — `.enumerate().map(|(i, score)| (score, i))`. -/
def pairsOf (db : MemoryDB) (q : List F) : List (F × Nat) :=
  (enumIdx 0 (scoresOf db q)).map fun p => (p.2, p.1)

/-- The fully ranked `(score, original index)` pairs used by `list`. -/
def rankedPairs (db : MemoryDB) (q : List F) : List (F × Nat) :=
  sortDesc (pairsOf db q)

/-- Indexing `db.memories[i]` and scoring it; `none` is the index panic. -/
def scoredOf (db : MemoryDB) (p : F × Nat) : Option ScoredMemory :=
  (db.memories[p.2]?).map fun m => m.into_scored p.1

/-- Mapping a fallible (panicking) function over a list: `none` as soon as
one element fails (the `Option`-valued traversal). -/
def mapOpt {α β : Type} (g : α → Option β) : List α → Option (List β)
  | [] => some []
  | x :: rest =>
    match g x with
    | none => none
    | some y =>
      match mapOpt g rest with
      | none => none
      | some ys => some (y :: ys)

/-- Ranking phase of `list` on a loaded database and query embedding: score
all rows, stable-sort descending (the sort's comparison panic is reachable
exactly when a NaN score is present among at least two scores), truncate to
`count` and materialize the records by indexing. -/
def rank_list (db : MemoryDB) (q : List F) (count : Nat) : Outcome (List ScoredMemory) :=
  if 2 ≤ (scoresOf db q).length ∧ hasNan (scoresOf db q) = true then .panicked
  else
    match mapOpt (scoredOf db) ((rankedPairs db q).take count) with
    | none => .panicked
    | some out => .ok out

/-- Operation `MemoryStore::list`: load; empty store returns the empty vector;
otherwise embed the query, check the matrix/vector shape required by `dot`,
and run the ranking phase. -/
def list (f : EmbedFn) (fs : FileContent) (description : String) (count : Nat) :
    Outcome (List ScoredMemory) :=
  match load_db fs with
  | .panicked => .panicked
  | .err e => .err e
  | .ok db =>
    if db.memories.isEmpty then .ok []
    else
      match embed f description with
      | .panicked => .panicked
      | .err e => .err e
      | .ok q =>
        if q.length = db.embCols then rank_list db q count
        else .panicked

/-- Run a sequence of `insert` calls, stopping at the first failure. -/
def insertSeq (f : EmbedFn) : FileContent → List (String × String) → FileContent × Outcome Unit
  | fs, [] => (fs, .ok ())
  | fs, (m, d) :: rest =>
    match insert f fs m d with
    | (fs', .ok _) => insertSeq f fs' rest
    | (fs', .err e) => (fs', .err e)
    | (fs', .panicked) => (fs', .panicked)

/-- Values of a successful `list` result, for stating concrete examples. -/
def okValues : Outcome (List ScoredMemory) → Option (List String)
  | .ok out => some (out.map fun sm => sm.value)
  | .err _ => none
  | .panicked => none

/-- An `EMBEDDING_SIZE`-length vector `[a, 0, 0, …, 0]`, for examples. -/
def padVec (a : ℚ) : List F := some a :: List.replicate (EMBEDDING_SIZE - 1) (some 0)

/-! Basic facts about the f32 model. -/

lemma fgt_some_iff {a b : ℚ} : fgt (some a) (some b) = true ↔ b < a := by
  simp [fgt]

lemma fgt_some_false_iff {a b : ℚ} : fgt (some a) (some b) = false ↔ a ≤ b := by
  simp [fgt]

lemma fgt_self_false (s : F) : fgt s s = false := by
  cases s <;> simp [fgt]

lemma fgt_asymm {s t : F} (h : fgt s t = true) : fgt t s = false := by
  cases s <;> cases t <;> simp_all [fgt]
  exact le_of_lt h

lemma hasNan_eq_false_iff {l : List F} : hasNan l = false ↔ ∀ s ∈ l, s ≠ none := by
  simp [hasNan, List.any_eq_false, Option.isNone_iff_eq_none]

/-! Facts about the embedding adapter. -/

lemma embed_ok_length {f : EmbedFn} {d : String} {v : List F}
    (h : embed f d = .ok v) : v.length = EMBEDDING_SIZE := by
  unfold embed at h
  cases hf : f d with
  | error u => rw [hf] at h; exact absurd h (by simp)
  | ok w =>
    rw [hf] at h
    by_cases hw : w.length = EMBEDDING_SIZE
    · simp only [hw, if_pos rfl] at h
      cases h
      exact hw
    · simp [hw] at h

lemma embed_ne_panicked {f : EmbedFn} {d : String} : embed f d ≠ .panicked := by
  unfold embed
  cases f d with
  | error u => simp
  | ok w => dsimp only; split <;> simp

/-- Claim C5: on an empty store, `get` returns no result and `list` returns
the empty sequence, for every provider and query, and neither errors. -/
theorem C5_empty_store_get_none_list_nil (f : EmbedFn) (d : String) (c : Nat) :
    get f .empty d = .ok none ∧ list f .empty d c = .ok [] := by
  exact ⟨rfl, rfl⟩

/-- Claim C7: loading a zero-byte file yields the empty collection with a
`0 × EMBEDDING_SIZE` matrix, while a non-empty unparseable file makes
`load_db` — and hence every operation — fail with `CorruptData`, without
panicking and without being treated as empty. -/
theorem C7_load_empty_vs_corrupt (f : EmbedFn) (d m : String) (c : Nat) :
    load_db .empty = .ok ⟨[], [], EMBEDDING_SIZE⟩ ∧
    load_db .corrupt = .err .corruptData ∧
    get f .corrupt d = .err .corruptData ∧
    list f .corrupt d c = .err .corruptData ∧
    insert f .corrupt m d = (.corrupt, .err .corruptData) := by
  exact ⟨rfl, rfl, rfl, rfl, rfl⟩

/-- Claim C6: when the embedding of the description fails — the provider
errors, or the returned vector's length differs from `EMBEDDING_SIZE` —
`insert` returns `ProviderError` resp. `DimensionMismatch` and the backing
file is exactly its pre-call content. -/
theorem C6_insert_embed_failure_leaves_file (f : EmbedFn) (fs : FileContent)
    (db : MemoryDB) (m d : String) (hload : load_db fs = .ok db) :
    (∀ u, f d = .error u → insert f fs m d = (fs, .err .providerError)) ∧
    (∀ v, f d = .ok v → v.length ≠ EMBEDDING_SIZE →
      insert f fs m d = (fs, .err .dimensionMismatch)) := by
  constructor
  · intro u hu
    unfold insert
    rw [hload]
    unfold embed
    rw [hu]
  · intro v hv hlen
    unfold insert
    rw [hload]
    unfold embed
    rw [hv]
    simp [hlen]

/-- Claim C9: when the loaded matrix has exactly `EMBEDDING_SIZE` columns,
the `push_row` panic branch of `insert` is unreachable, because `embed` has
already checked the new row's length. -/
theorem C9_insert_push_row_no_panic (f : EmbedFn) (fs : FileContent)
    (db : MemoryDB) (m d : String) (hload : load_db fs = .ok db)
    (hcols : db.embCols = EMBEDDING_SIZE) :
    (insert f fs m d).2 ≠ .panicked := by
  unfold insert
  rw [hload]
  cases hemb : embed f d with
  | panicked => exact absurd hemb embed_ne_panicked
  | err e => simp
  | ok v =>
    have hlen : v.length = db.embCols := by rw [embed_ok_length hemb, hcols]
    simp [hlen]

/-- Witness for C6 at a concrete input. -/
theorem C6_witness :
    insert (fun _ => .error ()) FileContent.empty "m" "d" =
      (FileContent.empty, .err .providerError) :=
  (C6_insert_embed_failure_leaves_file (fun _ => .error ()) .empty
    ⟨[], [], EMBEDDING_SIZE⟩ "m" "d" rfl).1 () rfl

/-- Witness for C9 at a concrete input. -/
theorem C9_witness :
    (insert (fun _ => .error ()) FileContent.empty "m" "d").2 ≠ .panicked :=
  C9_insert_push_row_no_panic (fun _ => .error ()) .empty
    ⟨[], [], EMBEDDING_SIZE⟩ "m" "d" rfl rfl

/-! Facts about enumeration. -/

lemma enumIdx_length (n : Nat) (l : List F) : (enumIdx n l).length = l.length := by
  induction l generalizing n with
  | nil => rfl
  | cons s rest ih => simp [enumIdx, ih]

lemma enumIdx_append (n : Nat) (l l' : List F) :
    enumIdx n (l ++ l') = enumIdx n l ++ enumIdx (n + l.length) l' := by
  induction l generalizing n with
  | nil => simp [enumIdx]
  | cons s rest ih =>
    have step : enumIdx n ((s :: rest) ++ l') = (n, s) :: enumIdx (n + 1) (rest ++ l') := rfl
    rw [step, ih]
    have harith : n + 1 + rest.length = n + (rest.length + 1) := by omega
    rw [harith]
    rfl

lemma mem_enumIdx {n : Nat} {l : List F} {p : Nat × F} :
    p ∈ enumIdx n l ↔ ∃ k, k < l.length ∧ p.1 = n + k ∧ l[k]? = some p.2 := by
  induction l generalizing n with
  | nil => simp [enumIdx]
  | cons s rest ih =>
    constructor
    · intro hp
      rcases List.mem_cons.mp hp with h | h
      · exact ⟨0, by simp, by simp [h], by simp [h]⟩
      · obtain ⟨k, hk, h1, h2⟩ := (ih (n := n + 1)).mp h
        exact ⟨k + 1, by simpa using hk, by omega, by simpa using h2⟩
    · rintro ⟨k, hk, h1, h2⟩
      cases k with
      | zero =>
        simp only [List.getElem?_cons_zero, Option.some.injEq] at h2
        have hp : p = (n, s) := by
          obtain ⟨p1, p2⟩ := p
          simp only [Nat.add_zero] at h1
          simp_all
        rw [hp]
        show (n, s) ∈ (n, s) :: enumIdx (n + 1) rest
        exact List.mem_cons_self _ _
      | succ k' =>
        have hmem : p ∈ enumIdx (n + 1) rest :=
          (ih (n := n + 1)).mpr ⟨k', by simpa using hk, by omega, by simpa using h2⟩
        show p ∈ (n, s) :: enumIdx (n + 1) rest
        exact List.mem_cons_of_mem _ hmem

lemma enumIdx_pairwise (n : Nat) (l : List F) :
    (enumIdx n l).Pairwise fun a b => a.1 < b.1 := by
  induction l generalizing n with
  | nil => exact List.Pairwise.nil
  | cons s rest ih =>
    refine List.Pairwise.cons ?_ (ih (n + 1))
    intro b hb
    obtain ⟨k, hk, h1, _⟩ := mem_enumIdx.mp hb
    simp only [h1]
    omega

/-! Facts about the `max_by` fold. -/

lemma maxByLast_append_single (l : List (Nat × F)) (p : Nat × F) :
    maxByLast (l ++ [p]) = maxStep (maxByLast l) p := by
  simp [maxByLast, List.foldl_append]

lemma foldl_maxStep_some (acc : Nat × F) (l : List (Nat × F)) :
    ∃ p, List.foldl maxStep (some acc) l = some p := by
  induction l generalizing acc with
  | nil => exact ⟨acc, rfl⟩
  | cons x rest ih =>
    simp only [List.foldl_cons]
    by_cases hc : fgt acc.2 x.2 = true
    · simpa [maxStep, hc] using ih acc
    · simpa [maxStep, hc] using ih x

lemma maxByLast_ne_none {l : List (Nat × F)} (h : l ≠ []) : ∃ p, maxByLast l = some p := by
  cases l with
  | nil => exact absurd rfl h
  | cons x rest =>
    unfold maxByLast
    simp only [List.foldl_cons]
    have hstep : maxStep none x = some x := rfl
    rw [hstep]
    exact foldl_maxStep_some x rest

lemma foldl_maxStep_mem (q : Nat × F) (l : List (Nat × F)) (p : Nat × F)
    (h : List.foldl maxStep (some q) l = some p) : p = q ∨ p ∈ l := by
  induction l generalizing q with
  | nil => left; exact (Option.some.inj h).symm
  | cons x rest ih =>
    simp only [List.foldl_cons] at h
    by_cases hc : fgt q.2 x.2 = true
    · rw [show maxStep (some q) x = some q from by simp [maxStep, hc]] at h
      rcases ih q h with h1 | h1
      · exact Or.inl h1
      · exact Or.inr (List.mem_cons_of_mem _ h1)
    · rw [show maxStep (some q) x = some x from by simp [maxStep, hc]] at h
      rcases ih x h with h1 | h1
      · exact Or.inr (h1 ▸ List.mem_cons_self _ _)
      · exact Or.inr (List.mem_cons_of_mem _ h1)

lemma maxByLast_mem {l : List (Nat × F)} {p : Nat × F}
    (h : maxByLast l = some p) : p ∈ l := by
  cases l with
  | nil => simp [maxByLast] at h
  | cons x rest =>
    unfold maxByLast at h
    simp only [List.foldl_cons] at h
    rw [show maxStep none x = some x from rfl] at h
    rcases foldl_maxStep_mem x rest p h with h1 | h1
    · exact h1 ▸ List.mem_cons_self _ _
    · exact List.mem_cons_of_mem _ h1

/-- Behaviour of `max_by` over the enumerated scores when no score is NaN:
it returns an index holding the maximum score, and every index holding that
same score lies at or before the returned one (ties go to the *last*
maximum in storage order). -/
theorem maxByLast_enum_spec (scores : List F)
    (hv : ∀ s ∈ scores, s ≠ none) (i : Nat) (v : F)
    (h : maxByLast (enumIdx 0 scores) = some (i, v)) :
    scores[i]? = some v ∧
      ∀ j w, scores[j]? = some w → fgt w v = false ∧ (w = v → j ≤ i) := by
  induction scores using List.reverseRecOn generalizing i v with
  | nil => simp [maxByLast, enumIdx] at h
  | append_singleton l s ih =>
    rw [enumIdx_append] at h
    simp only [Nat.zero_add] at h
    rw [show enumIdx l.length [s] = [(l.length, s)] from rfl] at h
    rw [maxByLast_append_single] at h
    have hvl : ∀ s' ∈ l, s' ≠ none := fun s' hs' => hv s' (List.mem_append_left _ hs')
    have hs : s ≠ none := hv s (List.mem_append_right _ (List.mem_singleton.mpr rfl))
    cases hm : maxByLast (enumIdx 0 l) with
    | none =>
      have hl : l = [] := by
        by_contra hne
        have henum : enumIdx 0 l ≠ [] := by
          intro habs
          have := enumIdx_length 0 l
          rw [habs] at this
          exact hne (List.length_eq_zero.mp this.symm)
        obtain ⟨p, hp⟩ := maxByLast_ne_none henum
        rw [hp] at hm
        cases hm
      subst hl
      rw [hm] at h
      simp only [List.length_nil] at h
      have hiv : (0, s) = (i, v) := Option.some.inj h
      cases hiv
      simp only [List.nil_append]
      refine ⟨by simp, ?_⟩
      intro j w hj
      have hjlt : j < 1 := by
        by_contra hge
        rw [List.getElem?_eq_none (by simpa using Nat.le_of_not_lt hge)] at hj
        cases hj
      interval_cases j
      simp only [List.getElem?_cons_zero, Option.some.injEq] at hj
      subst hj
      exact ⟨fgt_self_false _, fun _ => le_refl 0⟩
    | some m =>
      obtain ⟨i₀, v₀⟩ := m
      obtain ⟨hget₀, hrest₀⟩ := ih hvl i₀ v₀ hm
      have hi₀lt : i₀ < l.length := (List.getElem?_eq_some_iff.mp hget₀).1
      rw [hm] at h
      by_cases hc : fgt v₀ s = true
      · rw [show maxStep (some (i₀, v₀)) (l.length, s) = some (i₀, v₀) from by
          simp [maxStep, hc]] at h
        have hiv : (i₀, v₀) = (i, v) := Option.some.inj h
        cases hiv
        refine ⟨?_, ?_⟩
        · rw [List.getElem?_append_left hi₀lt]
          exact hget₀
        · intro j w hj
          by_cases hjl : j < l.length
          · rw [List.getElem?_append_left hjl] at hj
            exact hrest₀ j w hj
          · have hjlen : j = l.length := by
              have hjlt : j < l.length + 1 := by
                have := (List.getElem?_eq_some_iff.mp hj).1
                simpa using this
              omega
            subst hjlen
            rw [List.getElem?_concat_length] at hj
            have hws : s = w := Option.some.inj hj
            subst hws
            refine ⟨fgt_asymm hc, ?_⟩
            intro hwv
            subst hwv
            rw [fgt_self_false] at hc
            cases hc
      · rw [show maxStep (some (i₀, v₀)) (l.length, s) = some (l.length, s) from by
          simp [maxStep, hc]] at h
        have hiv : (l.length, s) = (i, v) := Option.some.inj h
        cases hiv
        refine ⟨by rw [List.getElem?_concat_length], ?_⟩
        intro j w hj
        have hjlt : j < l.length + 1 := by
          have := (List.getElem?_eq_some_iff.mp hj).1
          simpa using this
        refine ⟨?_, fun _ => by omega⟩
        by_cases hjl : j < l.length
        · rw [List.getElem?_append_left hjl] at hj
          have hwmax : fgt w v₀ = false := (hrest₀ j w hj).1
          obtain ⟨wq, rfl⟩ := Option.ne_none_iff_exists'.mp
            (hvl w (List.getElem?_mem hj))
          obtain ⟨vq₀, rfl⟩ := Option.ne_none_iff_exists'.mp
            (hvl v₀ (List.getElem?_mem hget₀))
          obtain ⟨sq, rfl⟩ := Option.ne_none_iff_exists'.mp hs
          have h1 : wq ≤ vq₀ := fgt_some_false_iff.mp hwmax
          have h2 : vq₀ ≤ sq := fgt_some_false_iff.mp (by simpa [fgt] using hc)
          exact fgt_some_false_iff.mpr (le_trans h1 h2)
        · have hjlen : j = l.length := by omega
          subst hjlen
          rw [List.getElem?_concat_length] at hj
          have hws : s = w := Option.some.inj hj
          subst hws
          exact fgt_self_false _

/-! Evaluation lemmas that push `get` and `list` through their guards. -/

lemma get_eval {f : EmbedFn} {fs : FileContent} {db : MemoryDB} {d : String} {q : List F}
    (hload : load_db fs = .ok db) (hne : db.memories ≠ [])
    (hemb : embed f d = .ok q) (hcols : q.length = db.embCols) :
    get f fs d = rank_get db q := by
  unfold get
  rw [hload]
  have hne' : db.memories.isEmpty = false := by
    simpa [List.isEmpty_iff] using hne
  dsimp only
  rw [hne']
  simp only [Bool.false_eq_true, if_false]
  rw [hemb]
  dsimp only
  rw [if_pos hcols]

lemma list_eval {f : EmbedFn} {fs : FileContent} {db : MemoryDB} {d : String} {q : List F}
    {count : Nat}
    (hload : load_db fs = .ok db) (hne : db.memories ≠ [])
    (hemb : embed f d = .ok q) (hcols : q.length = db.embCols) :
    list f fs d count = rank_list db q count := by
  unfold list
  rw [hload]
  have hne' : db.memories.isEmpty = false := by
    simpa [List.isEmpty_iff] using hne
  dsimp only
  rw [hne']
  simp only [Bool.false_eq_true, if_false]
  rw [hemb]
  dsimp only
  rw [if_pos hcols]

lemma scoresOf_length {db : MemoryDB} {q : List F} :
    (scoresOf db q).length = db.embeddings.length := by
  simp [scoresOf]

lemma rank_get_no_nan {db : MemoryDB} {q : List F}
    (hnan : ∀ s ∈ scoresOf db q, s ≠ none) :
    rank_get db q =
      match maxByLast (enumIdx 0 (scoresOf db q)) with
      | none => .panicked
      | some (i, s) =>
        match db.memories[i]? with
        | none => .panicked
        | some m => .ok (some (m.into_scored s)) := by
  unfold rank_get
  rw [if_neg]
  intro ⟨_, hnan'⟩
  rw [hasNan_eq_false_iff.mpr hnan] at hnan'
  cases hnan'

/-- Claim C1 (amended): for a non-empty collection whose scores contain no
NaN, `get` returns a record achieving the maximum dot-product score, and on
exact ties the record returned is the LAST maximum encountered in storage
order (Rust's `Iterator::max_by` keeps the later of two equal elements). -/
theorem C1_get_returns_last_max (f : EmbedFn) (db : MemoryDB) (d : String) (q : List F)
    (hemb : embed f d = .ok q) (hcols : q.length = db.embCols)
    (hlen : db.embeddings.length = db.memories.length)
    (hne : db.memories ≠ [])
    (hnan : ∀ s ∈ scoresOf db q, s ≠ none) :
    ∃ (i : Nat) (v : F), (scoresOf db q)[i]? = some v ∧
      (∃ m, db.memories[i]? = some m ∧
        get f (.data db) d = .ok (some (Memory.into_scored m v))) ∧
      (∀ (j : Nat) (w : F), (scoresOf db q)[j]? = some w → fgt w v = false) ∧
      (∀ (j : Nat) (w : F), (scoresOf db q)[j]? = some w → w = v → j ≤ i) := by
  have hslen : (scoresOf db q).length = db.memories.length := by
    rw [scoresOf_length, hlen]
  have hsnil : scoresOf db q ≠ [] := by
    intro habs
    rw [habs] at hslen
    exact hne (List.length_eq_zero.mp hslen.symm)
  have henum : enumIdx 0 (scoresOf db q) ≠ [] := by
    intro habs
    have hlen0 := enumIdx_length 0 (scoresOf db q)
    rw [habs] at hlen0
    exact hsnil (List.length_eq_zero.mp hlen0.symm)
  obtain ⟨⟨i, v⟩, hmax⟩ := maxByLast_ne_none henum
  obtain ⟨hgetv, hrest⟩ := maxByLast_enum_spec _ hnan i v hmax
  have hilt : i < (scoresOf db q).length := (List.getElem?_eq_some_iff.mp hgetv).1
  have himem : i < db.memories.length := by omega
  refine ⟨i, v, hgetv, ⟨db.memories[i], List.getElem?_eq_getElem himem, ?_⟩,
    fun j w hj => (hrest j w hj).1, fun j w hj => (hrest j w hj).2⟩
  rw [get_eval (show load_db (.data db) = .ok db from rfl) hne hemb hcols,
    rank_get_no_nan hnan, hmax]
  dsimp only
  rw [List.getElem?_eq_getElem himem]

/-! Facts about the stable descending sort. -/

/-- Output order demanded of the stable descending sort: earlier entries
have strictly greater scores, or equal scores and a smaller original
index. -/
def rankLE (a b : F × Nat) : Prop :=
  fgt a.1 b.1 = true ∨ (a.1 = b.1 ∧ a.2 < b.2)

lemma insertDesc_perm (p : F × Nat) (l : List (F × Nat)) :
    List.Perm (insertDesc p l) (p :: l) := by
  induction l with
  | nil => exact List.Perm.refl _
  | cons q rest ih =>
    unfold insertDesc
    by_cases hc : fgt q.1 p.1 = true
    · rw [if_pos hc]
      exact (ih.cons q).trans (List.Perm.swap p q rest)
    · rw [if_neg hc]

lemma sortDesc_perm (l : List (F × Nat)) : List.Perm (sortDesc l) l := by
  induction l with
  | nil => exact List.Perm.refl _
  | cons x rest ih =>
    have hstep : sortDesc (x :: rest) = insertDesc x (sortDesc rest) := rfl
    rw [hstep]
    exact (insertDesc_perm x _).trans (ih.cons x)

lemma mem_sortDesc {l : List (F × Nat)} {p : F × Nat} :
    p ∈ sortDesc l ↔ p ∈ l := (sortDesc_perm l).mem_iff

lemma insertDesc_pairwise_rankLE {x : F × Nat} {l : List (F × Nat)}
    (hvx : x.1 ≠ none) (hvl : ∀ p ∈ l, p.1 ≠ none)
    (hidx : ∀ p ∈ l, x.2 < p.2)
    (hPW : l.Pairwise rankLE) :
    (insertDesc x l).Pairwise rankLE := by
  induction l with
  | nil => simp [insertDesc]
  | cons q rest ih =>
    obtain ⟨hq, hrestPW⟩ := List.pairwise_cons.mp hPW
    have hvq : q.1 ≠ none := hvl q (List.mem_cons_self _ _)
    obtain ⟨xq, hxq⟩ := Option.ne_none_iff_exists'.mp hvx
    obtain ⟨qq, hqq⟩ := Option.ne_none_iff_exists'.mp hvq
    by_cases hc : fgt q.1 x.1 = true
    · rw [show insertDesc x (q :: rest) = q :: insertDesc x rest from by
        simp [insertDesc, hc]]
      refine List.pairwise_cons.mpr ⟨?_, ih (fun p hp => hvl p (List.mem_cons_of_mem _ hp))
        (fun p hp => hidx p (List.mem_cons_of_mem _ hp)) hrestPW⟩
      intro z hz
      have hz' : z = x ∨ z ∈ rest := by
        have hmem := (insertDesc_perm x rest).mem_iff.mp hz
        simpa using hmem
      rcases hz' with rfl | hz'
      · exact Or.inl hc
      · exact hq z hz'
    · rw [show insertDesc x (q :: rest) = x :: q :: rest from by
        simp [insertDesc, hc]]
      refine List.pairwise_cons.mpr ⟨?_, hPW⟩
      intro z hz
      have hqx : qq ≤ xq := by
        rw [hxq, hqq] at hc
        exact fgt_some_false_iff.mp (Bool.not_eq_true _ ▸ eq_false_of_ne_true hc)
      rcases List.mem_cons.mp hz with rfl | hz'
      · rcases lt_or_eq_of_le hqx with hlt | heq
        · exact Or.inl (by rw [hxq, hqq]; exact fgt_some_iff.mpr hlt)
        · exact Or.inr ⟨by rw [hxq, hqq, heq], hidx z (List.mem_cons_self _ _)⟩
      · have hvz : z.1 ≠ none := hvl z (List.mem_cons_of_mem _ hz')
        obtain ⟨zq, hzq⟩ := Option.ne_none_iff_exists'.mp hvz
        rcases hq z hz' with hgt | ⟨heq, _⟩
        · rw [hqq, hzq] at hgt
          have hzlt : zq < qq := fgt_some_iff.mp hgt
          exact Or.inl (by rw [hxq, hzq]; exact fgt_some_iff.mpr (lt_of_lt_of_le hzlt hqx))
        · rw [hqq, hzq] at heq
          have hzq' : zq = qq := (Option.some.inj heq).symm
          rcases lt_or_eq_of_le hqx with hlt | heq2
          · exact Or.inl (by rw [hxq, hzq]; exact fgt_some_iff.mpr (hzq' ▸ hlt))
          · refine Or.inr ⟨by rw [hxq, hzq, hzq', heq2], hidx z (List.mem_cons_of_mem _ hz')⟩

lemma sortDesc_pairwise {l : List (F × Nat)}
    (hvl : ∀ p ∈ l, p.1 ≠ none)
    (hidx : l.Pairwise fun a b => a.2 < b.2) :
    (sortDesc l).Pairwise rankLE := by
  induction l with
  | nil => exact List.Pairwise.nil
  | cons x rest ih =>
    obtain ⟨hx, hrest⟩ := List.pairwise_cons.mp hidx
    have hstep : sortDesc (x :: rest) = insertDesc x (sortDesc rest) := rfl
    rw [hstep]
    refine insertDesc_pairwise_rankLE (hvl x (List.mem_cons_self _ _))
      (fun p hp => hvl p (List.mem_cons_of_mem _ (mem_sortDesc.mp hp)))
      (fun p hp => hx p (mem_sortDesc.mp hp))
      (ih (fun p hp => hvl p (List.mem_cons_of_mem _ hp)) hrest)

lemma pairwise_of_short {α : Type} {R : α → α → Prop} {l : List α}
    (h : l.length ≤ 1) : l.Pairwise R := by
  cases l with
  | nil => exact List.Pairwise.nil
  | cons x rest =>
    cases rest with
    | nil => simp
    | cons y rest' => simp at h

/-! Facts about the storage-order score pairs. -/

lemma pairsOf_length {db : MemoryDB} {q : List F} :
    (pairsOf db q).length = (scoresOf db q).length := by
  simp [pairsOf, enumIdx_length]

lemma mem_pairsOf {db : MemoryDB} {q : List F} {p : F × Nat} :
    p ∈ pairsOf db q ↔ (scoresOf db q)[p.2]? = some p.1 := by
  constructor
  · intro hp
    obtain ⟨a, ha, hfa⟩ := List.mem_map.mp hp
    obtain ⟨k, hk, h1, h2⟩ := mem_enumIdx.mp ha
    have hp2 : p.2 = k := by
      have := congrArg Prod.snd hfa
      simp at this
      omega
    have hp1 : p.1 = a.2 := by
      have := congrArg Prod.fst hfa
      simpa using this.symm
    rw [hp2, hp1]
    exact h2
  · intro hp
    have hlt : p.2 < (scoresOf db q).length := (List.getElem?_eq_some_iff.mp hp).1
    refine List.mem_map.mpr ⟨(p.2, p.1), mem_enumIdx.mpr ⟨p.2, hlt, by omega, hp⟩, ?_⟩
    exact Prod.ext rfl rfl

lemma pairsOf_pairwise_idx (db : MemoryDB) (q : List F) :
    (pairsOf db q).Pairwise fun a b => a.2 < b.2 := by
  refine List.Pairwise.map _ ?_ (enumIdx_pairwise 0 (scoresOf db q))
  intro a b hab
  simpa using hab

lemma pairsOf_vals {db : MemoryDB} {q : List F}
    (hnan : ∀ s ∈ scoresOf db q, s ≠ none) :
    ∀ p ∈ pairsOf db q, p.1 ≠ none := by
  intro p hp
  exact hnan p.1 (List.getElem?_mem (mem_pairsOf.mp hp))

lemma rankedPairs_pairwise {db : MemoryDB} {q : List F}
    (hnan : ∀ s ∈ scoresOf db q, s ≠ none) :
    (rankedPairs db q).Pairwise rankLE :=
  sortDesc_pairwise (pairsOf_vals hnan) (pairsOf_pairwise_idx db q)

lemma rankedPairs_length {db : MemoryDB} {q : List F} :
    (rankedPairs db q).length = (scoresOf db q).length := by
  rw [← pairsOf_length]
  exact (sortDesc_perm (pairsOf db q)).length_eq

lemma mem_rankedPairs {db : MemoryDB} {q : List F} {p : F × Nat} :
    p ∈ rankedPairs db q ↔ (scoresOf db q)[p.2]? = some p.1 := by
  rw [show rankedPairs db q = sortDesc (pairsOf db q) from rfl, mem_sortDesc]
  exact mem_pairsOf

/-! Facts about traversing with `Option` (the panics hidden in indexing). -/

lemma mapOpt_isSome {α β : Type} {g : α → Option β} {l : List α}
    (h : ∀ a ∈ l, (g a).isSome) : ∃ out, mapOpt g l = some out := by
  induction l with
  | nil => exact ⟨[], rfl⟩
  | cons x rest ih =>
    obtain ⟨y, hy⟩ := Option.isSome_iff_exists.mp (h x (List.mem_cons_self _ _))
    obtain ⟨out, hout⟩ := ih fun a ha => h a (List.mem_cons_of_mem _ ha)
    exact ⟨y :: out, by simp [mapOpt, hy, hout]⟩

lemma mapOpt_length {α β : Type} {g : α → Option β} {l : List α} {out : List β}
    (h : mapOpt g l = some out) : out.length = l.length := by
  induction l generalizing out with
  | nil =>
    cases h
    rfl
  | cons x rest ih =>
    unfold mapOpt at h
    cases hx : g x with
    | none => rw [hx] at h; cases h
    | some y =>
      rw [hx] at h
      cases hrest : mapOpt g rest with
      | none => rw [hrest] at h; cases h
      | some ys =>
        rw [hrest] at h
        cases h
        simp [ih hrest]

lemma mapOpt_mem {α β : Type} {g : α → Option β} {l : List α} {out : List β}
    (h : mapOpt g l = some out) : ∀ b ∈ out, ∃ a ∈ l, g a = some b := by
  induction l generalizing out with
  | nil =>
    cases h
    simp
  | cons x rest ih =>
    unfold mapOpt at h
    cases hx : g x with
    | none => rw [hx] at h; cases h
    | some y =>
      rw [hx] at h
      cases hrest : mapOpt g rest with
      | none => rw [hrest] at h; cases h
      | some ys =>
        rw [hrest] at h
        cases h
        intro b hb
        rcases List.mem_cons.mp hb with rfl | hb'
        · exact ⟨x, List.mem_cons_self _ _, hx⟩
        · obtain ⟨a, ha, hga⟩ := ih hrest b hb'
          exact ⟨a, List.mem_cons_of_mem _ ha, hga⟩

lemma mapOpt_map_eq {α β γ : Type} {g : α → Option β} {h1 : β → γ} {h2 : α → γ}
    (hcomm : ∀ a b, g a = some b → h1 b = h2 a) {l : List α} {out : List β}
    (h : mapOpt g l = some out) : out.map h1 = l.map h2 := by
  induction l generalizing out with
  | nil =>
    cases h
    rfl
  | cons x rest ih =>
    unfold mapOpt at h
    cases hx : g x with
    | none => rw [hx] at h; cases h
    | some y =>
      rw [hx] at h
      cases hrest : mapOpt g rest with
      | none => rw [hrest] at h; cases h
      | some ys =>
        rw [hrest] at h
        cases h
        simp [hcomm x y hx, ih hrest]

lemma mapOpt_append {α β : Type} {g : α → Option β} {l1 l2 : List α}
    {out : List β} (h : mapOpt g (l1 ++ l2) = some out) :
    ∃ o1 o2, mapOpt g l1 = some o1 ∧ mapOpt g l2 = some o2 ∧ out = o1 ++ o2 := by
  induction l1 generalizing out with
  | nil => exact ⟨[], out, rfl, by simpa using h, by simp⟩
  | cons x rest ih =>
    rw [List.cons_append] at h
    unfold mapOpt at h
    cases hx : g x with
    | none => rw [hx] at h; cases h
    | some y =>
      rw [hx] at h
      cases hrest : mapOpt g (rest ++ l2) with
      | none => rw [hrest] at h; cases h
      | some ys =>
        rw [hrest] at h
        cases h
        obtain ⟨o1, o2, ho1, ho2, rfl⟩ := ih hrest
        exact ⟨y :: o1, o2, by simp [mapOpt, hx, ho1], ho2, by simp⟩

/-- Evaluating `scoredOf` ties the result record and score to the pair. -/
lemma scoredOf_eq_some {db : MemoryDB} {p : F × Nat} {sm : ScoredMemory}
    (h : scoredOf db p = some sm) :
    ∃ m, db.memories[p.2]? = some m ∧ sm = Memory.into_scored m p.1 := by
  unfold scoredOf at h
  obtain ⟨m, hm, rfl⟩ := Option.map_eq_some'.mp h
  exact ⟨m, hm, rfl⟩

/-- Indexing `db.memories` with a default, to phrase the record at a pair. -/
def memAt (db : MemoryDB) (p : F × Nat) : Memory := db.memories.getD p.2 ⟨"", ""⟩

lemma scoredOf_memAt {db : MemoryDB} {p : F × Nat} {sm : ScoredMemory}
    (h : scoredOf db p = some sm) :
    Memory.mk sm.value sm.description = memAt db p ∧ sm.score = p.1 := by
  obtain ⟨m, hm, rfl⟩ := scoredOf_eq_some h
  unfold memAt
  rw [List.getD_eq_getElem?_getD, hm]
  exact ⟨rfl, rfl⟩

lemma enumIdx_map_getD (scores : List F) (n : Nat) (ms : List Memory)
    (hlen : n + scores.length = ms.length) :
    (enumIdx n scores).map (fun a => ms.getD a.1 ⟨"", ""⟩) = ms.drop n := by
  induction scores generalizing n with
  | nil =>
    simp only [List.length_nil, Nat.add_zero] at hlen
    rw [hlen]
    simp [enumIdx]
  | cons s rest ih =>
    simp only [List.length_cons] at hlen
    have hn : n < ms.length := by omega
    simp only [enumIdx, List.map_cons]
    rw [ih (n + 1) (by omega)]
    rw [List.drop_eq_getElem_cons hn]
    congr 1
    rw [List.getD_eq_getElem?_getD, List.getElem?_eq_getElem hn]
    rfl

lemma pairsOf_map_memAt {db : MemoryDB} {q : List F}
    (hlen : db.embeddings.length = db.memories.length) :
    (pairsOf db q).map (memAt db) = db.memories := by
  unfold pairsOf memAt
  rw [List.map_map]
  have hfun : (fun p : F × Nat => db.memories.getD p.2 (⟨"", ""⟩ : Memory)) ∘
      (fun p : Nat × F => (p.2, p.1)) = fun a : Nat × F => db.memories.getD a.1 ⟨"", ""⟩ := by
    funext a
    rfl
  rw [hfun, enumIdx_map_getD (scoresOf db q) 0 db.memories
    (by rw [scoresOf_length, hlen]; omega)]
  rfl

/-! Evaluation of `rank_list` under the no-panic guard. -/

lemma rank_list_no_nan {db : MemoryDB} {q : List F} {count : Nat}
    (hnan : ∀ s ∈ scoresOf db q, s ≠ none) :
    rank_list db q count =
      match mapOpt (scoredOf db) ((rankedPairs db q).take count) with
      | none => .panicked
      | some out => .ok out := by
  unfold rank_list
  rw [if_neg]
  intro ⟨_, hnan'⟩
  rw [hasNan_eq_false_iff.mpr hnan] at hnan'
  cases hnan'

/-- Claim C10: when no per-row dot product is NaN (and the collection and
query are well-formed), the comparison panics inside `get` and `list` are
unreachable: both operations return successfully. -/
theorem C10_no_nan_no_ranking_panic (f : EmbedFn) (fs : FileContent) (d : String)
    (count : Nat) (db : MemoryDB) (q : List F)
    (hload : load_db fs = .ok db) (hemb : embed f d = .ok q)
    (hcols : q.length = db.embCols)
    (hlen : db.embeddings.length = db.memories.length)
    (hnan : ∀ s ∈ scoresOf db q, s ≠ none) :
    (∃ r, get f fs d = .ok r) ∧ (∃ out, list f fs d count = .ok out) := by
  by_cases hne : db.memories = []
  · have hget : get f fs d = .ok none := by
      unfold get
      rw [hload]
      dsimp only
      rw [hne]
      rfl
    have hlist : list f fs d count = .ok [] := by
      unfold list
      rw [hload]
      dsimp only
      rw [hne]
      rfl
    exact ⟨⟨none, hget⟩, ⟨[], hlist⟩⟩
  · have hslen : (scoresOf db q).length = db.memories.length := by
      rw [scoresOf_length, hlen]
    constructor
    · rw [get_eval hload hne hemb hcols, rank_get_no_nan hnan]
      have hsnil : scoresOf db q ≠ [] := by
        intro habs
        rw [habs] at hslen
        exact hne (List.length_eq_zero.mp hslen.symm)
      have henum : enumIdx 0 (scoresOf db q) ≠ [] := by
        intro habs
        have hlen0 := enumIdx_length 0 (scoresOf db q)
        rw [habs] at hlen0
        exact hsnil (List.length_eq_zero.mp hlen0.symm)
      obtain ⟨⟨i, v⟩, hmax⟩ := maxByLast_ne_none henum
      have hilt : i < db.memories.length := by
        obtain ⟨k, hk, h1, _⟩ := mem_enumIdx.mp (maxByLast_mem hmax)
        omega
      rw [hmax]
      dsimp only
      rw [List.getElem?_eq_getElem hilt]
      exact ⟨some ((db.memories[i]).into_scored v), rfl⟩
    · rw [list_eval hload hne hemb hcols, rank_list_no_nan hnan]
      obtain ⟨out, hout⟩ : ∃ out,
          mapOpt (scoredOf db) ((rankedPairs db q).take count) = some out := by
        refine mapOpt_isSome ?_
        intro p hp
        have hpm : p ∈ rankedPairs db q := List.mem_of_mem_take hp
        have hps : (scoresOf db q)[p.2]? = some p.1 := mem_rankedPairs.mp hpm
        have hplt : p.2 < db.memories.length := by
          have := (List.getElem?_eq_some_iff.mp hps).1
          omega
        unfold scoredOf
        rw [List.getElem?_eq_getElem hplt]
        rfl
      rw [hout]
      exact ⟨out, rfl⟩

/-! Inversion lemmas: what a successful `list`/`get` tells us. -/

lemma list_ok_shape {f : EmbedFn} {fs : FileContent} {d : String} {count : Nat}
    {out : List ScoredMemory} (h : list f fs d count = .ok out) :
    ∃ db, load_db fs = .ok db ∧
      ((db.memories = [] ∧ out = []) ∨
       (db.memories ≠ [] ∧ ∃ q, embed f d = .ok q ∧ q.length = db.embCols ∧
         mapOpt (scoredOf db) ((rankedPairs db q).take count) = some out)) := by
  unfold list at h
  cases hload : load_db fs with
  | panicked => rw [hload] at h; cases h
  | err e => rw [hload] at h; cases h
  | ok db =>
    rw [hload] at h
    dsimp only at h
    refine ⟨db, rfl, ?_⟩
    by_cases hne : db.memories = []
    · left
      rw [show db.memories.isEmpty = true by simp [hne]] at h
      rw [if_pos rfl] at h
      exact ⟨hne, (Outcome.ok.inj h).symm⟩
    · right
      rw [show db.memories.isEmpty = false by simpa [List.isEmpty_iff] using hne] at h
      simp only [Bool.false_eq_true, if_false] at h
      cases hemb : embed f d with
      | panicked => exact absurd hemb embed_ne_panicked
      | err e => rw [hemb] at h; dsimp only at h; cases h
      | ok q =>
        rw [hemb] at h
        dsimp only at h
        by_cases hcols : q.length = db.embCols
        · rw [if_pos hcols] at h
          unfold rank_list at h
          refine ⟨hne, q, rfl, hcols, ?_⟩
          by_cases hguard : 2 ≤ (scoresOf db q).length ∧ hasNan (scoresOf db q) = true
          · rw [if_pos hguard] at h; cases h
          · rw [if_neg hguard] at h
            cases hmap : mapOpt (scoredOf db) ((rankedPairs db q).take count) with
            | none => rw [hmap] at h; cases h
            | some o =>
              rw [hmap] at h
              exact congrArg some (Outcome.ok.inj h)
        · rw [if_neg hcols] at h; cases h

lemma get_ok_some_shape {f : EmbedFn} {fs : FileContent} {d : String}
    {sm : ScoredMemory} (h : get f fs d = .ok (some sm)) :
    ∃ (db : MemoryDB) (q : List F) (i : Nat) (s : F) (m : Memory),
      load_db fs = .ok db ∧ embed f d = .ok q ∧
      maxByLast (enumIdx 0 (scoresOf db q)) = some (i, s) ∧
      db.memories[i]? = some m ∧ sm = Memory.into_scored m s := by
  unfold get at h
  cases hload : load_db fs with
  | panicked => rw [hload] at h; cases h
  | err e => rw [hload] at h; cases h
  | ok db =>
    rw [hload] at h
    dsimp only at h
    by_cases hne : db.memories = []
    · rw [show db.memories.isEmpty = true by simp [hne]] at h
      rw [if_pos rfl] at h
      simp at h
    · rw [show db.memories.isEmpty = false by simpa [List.isEmpty_iff] using hne] at h
      simp only [Bool.false_eq_true, if_false] at h
      cases hemb : embed f d with
      | panicked => exact absurd hemb embed_ne_panicked
      | err e => rw [hemb] at h; dsimp only at h; cases h
      | ok q =>
        rw [hemb] at h
        dsimp only at h
        by_cases hcols : q.length = db.embCols
        · rw [if_pos hcols] at h
          unfold rank_get at h
          by_cases hguard : 2 ≤ (scoresOf db q).length ∧ hasNan (scoresOf db q) = true
          · rw [if_pos hguard] at h; cases h
          · rw [if_neg hguard] at h
            cases hmax : maxByLast (enumIdx 0 (scoresOf db q)) with
            | none => rw [hmax] at h; cases h
            | some p =>
              obtain ⟨i, s⟩ := p
              rw [hmax] at h
              dsimp only at h
              cases hmem : db.memories[i]? with
              | none => rw [hmem] at h; cases h
              | some m =>
                rw [hmem] at h
                have hsm : m.into_scored s = sm := by
                  have hinj := Outcome.ok.inj h
                  exact Option.some.inj hinj
                exact ⟨db, q, i, s, m, rfl, rfl, hmax, hmem, hsm.symm⟩
        · rw [if_neg hcols] at h; cases h

/-- Claim C2: a successful `list` call returns exactly the stable descending
ranking truncated to `count`: the ranked pairs are pairwise ordered by
strictly greater score or equal score with smaller storage index, the output
is their materialization, and in particular the output's scores are the
ranked scores in order.  (Determinism across repeated calls is immediate:
`list` is a pure function of the file content, provider and query.) -/
theorem C2_list_sorted_desc_stable_ties (f : EmbedFn) (db : MemoryDB) (d : String)
    (q : List F) (count : Nat) (out : List ScoredMemory)
    (hemb : embed f d = .ok q) (hcols : q.length = db.embCols)
    (hlen : db.embeddings.length = db.memories.length)
    (hlist : list f (.data db) d count = .ok out) :
    (rankedPairs db q).Pairwise rankLE ∧
    mapOpt (scoredOf db) ((rankedPairs db q).take count) = some out ∧
    out.map (fun sm => sm.score) = ((rankedPairs db q).take count).map (fun p => p.1) := by
  obtain ⟨db', hload', hshape⟩ := list_ok_shape hlist
  have hdb : db' = db := by
    rw [show load_db (.data db) = .ok db from rfl] at hload'
    exact (Outcome.ok.inj hload').symm
  subst hdb
  rcases hshape with ⟨hne, rfl⟩ | ⟨hne, q0, hemb0, hcols0, hmap⟩
  · have hemb0 : db'.embeddings = [] := by
      rw [hne] at hlen
      exact List.length_eq_zero.mp hlen
    have hscores : scoresOf db' q = [] := by simp [scoresOf, hemb0]
    have hrp : rankedPairs db' q = [] := by
      have hrl := @rankedPairs_length db' q
      rw [hscores] at hrl
      exact List.length_eq_zero.mp (by simpa using hrl)
    simp [hrp, mapOpt]
  · have hq : q0 = q := by
      rw [hemb] at hemb0
      exact (Outcome.ok.inj hemb0).symm
    subst hq
    have hpw : (rankedPairs db' q0).Pairwise rankLE := by
      by_cases hnan : hasNan (scoresOf db' q0) = true
      · have hshort : (scoresOf db' q0).length ≤ 1 := by
          by_contra hlong
          have hguard2 : 2 ≤ (scoresOf db' q0).length := by omega
          rw [list_eval (show load_db (.data db') = .ok db' from rfl) hne hemb hcols] at hlist
          unfold rank_list at hlist
          rw [if_pos ⟨hguard2, hnan⟩] at hlist
          cases hlist
        exact pairwise_of_short (by rw [rankedPairs_length]; exact hshort)
      · exact rankedPairs_pairwise
          (hasNan_eq_false_iff.mp (Bool.not_eq_true _ ▸ eq_false_of_ne_true hnan))
    refine ⟨hpw, hmap, ?_⟩
    exact mapOpt_map_eq (fun p sm hp => (scoredOf_memAt hp).2) hmap

/-- Claim C4: for `count < count2`, the `list` result for `count` is a
prefix of the result for `count2`; `count = 0` yields the empty sequence;
and a `count` at least the collection size yields every record of the
collection (as a permutation materialized in ranked order). -/
theorem C4_truncation_law (f : EmbedFn) (fs : FileContent) (d : String)
    (c c2 : Nat) (out out2 : List ScoredMemory)
    (h1 : list f fs d c = .ok out) (h2 : list f fs d c2 = .ok out2) (hc : c < c2) :
    (∃ t, out2 = out ++ t) ∧
    (c = 0 → out = []) ∧
    (∀ db q, load_db fs = .ok db → embed f d = .ok q →
      db.embeddings.length = db.memories.length → db.memories.length ≤ c →
      out.length = db.memories.length ∧
      List.Perm (out.map fun sm => Memory.mk sm.value sm.description) db.memories) := by
  obtain ⟨db, hload, hshape1⟩ := list_ok_shape h1
  obtain ⟨db', hload', hshape2⟩ := list_ok_shape h2
  have hdb : db = db' := by
    rw [hload] at hload'
    exact Outcome.ok.inj hload'
  subst hdb
  rcases hshape1 with ⟨hne, rfl⟩ | ⟨hne, q, hembq, hcolsq, hmap1⟩
  · rcases hshape2 with ⟨_, rfl⟩ | ⟨hne2, _, _, _, _⟩
    · refine ⟨⟨[], rfl⟩, fun _ => rfl, ?_⟩
      intro db0 q0 hload0 _ hlen0 _
      have hdb0 : db0 = db := by
        rw [hload] at hload0
        exact (Outcome.ok.inj hload0).symm
      subst hdb0
      rw [hne]
      exact ⟨rfl, List.Perm.refl _⟩
    · exact absurd hne hne2.elim
  · rcases hshape2 with ⟨hne2, _⟩ | ⟨_, q2, hembq2, _, hmap2⟩
    · exact absurd hne2 hne
    · have hq2 : q = q2 := by
        rw [hembq] at hembq2
        exact Outcome.ok.inj hembq2
      subst hq2
      have hsplit : (rankedPairs db q).take c2 =
          (rankedPairs db q).take c ++ ((rankedPairs db q).take c2).drop c := by
        conv_lhs => rw [← List.take_append_drop c ((rankedPairs db q).take c2)]
        rw [List.take_take, Nat.min_eq_left (Nat.le_of_lt hc)]
      rw [hsplit] at hmap2
      obtain ⟨o1, o2, ho1, ho2, rfl⟩ := mapOpt_append hmap2
      have ho1out : out = o1 := by
        rw [hmap1] at ho1
        exact Option.some.inj ho1
      subst ho1out
      refine ⟨⟨o2, rfl⟩, ?_, ?_⟩
      · intro hc0
        subst hc0
        rw [List.take_zero] at hmap1
        exact (Option.some.inj hmap1).symm
      · intro db0 q0 hload0 hembq0 hlen0 hcount
        have hdb0 : db0 = db := by
          rw [hload] at hload0
          exact (Outcome.ok.inj hload0).symm
        subst hdb0
        have hq0 : q0 = q := by
          rw [hembq] at hembq0
          exact (Outcome.ok.inj hembq0).symm
        subst hq0
        have hrplen : (rankedPairs db0 q0).length = db0.memories.length := by
          rw [rankedPairs_length, scoresOf_length, hlen0]
        have htake : (rankedPairs db0 q0).take c = rankedPairs db0 q0 :=
          List.take_of_length_le (by omega)
        rw [htake] at hmap1
        refine ⟨by rw [mapOpt_length hmap1, hrplen], ?_⟩
        have hmapeq : out.map (fun sm => Memory.mk sm.value sm.description) =
            (rankedPairs db0 q0).map (memAt db0) :=
          mapOpt_map_eq (fun p sm hp => (scoredOf_memAt hp).1) hmap1
        have hperm : List.Perm ((rankedPairs db0 q0).map (memAt db0))
            ((pairsOf db0 q0).map (memAt db0)) :=
          (sortDesc_perm (pairsOf db0 q0)).map _
        rw [pairsOf_map_memAt hlen0] at hperm
        rw [hmapeq]
        exact hperm

/-- Claim C8: every score that `get` or `list` returns is the raw dot
product of the query embedding with the stored embedding row of the record
returned — no cosine normalization and no distance. -/
theorem C8_score_is_raw_dot_product (f : EmbedFn) (fs : FileContent) (d : String) :
    (∀ db q sm, load_db fs = .ok db → embed f d = .ok q →
      get f fs d = .ok (some sm) →
      ∃ (i : Nat) (m : Memory) (row : List F), db.memories[i]? = some m ∧
        db.embeddings[i]? = some row ∧ sm = Memory.into_scored m (dotF row q)) ∧
    (∀ db q count out sm, load_db fs = .ok db → embed f d = .ok q →
      list f fs d count = .ok out → sm ∈ out →
      ∃ (i : Nat) (m : Memory) (row : List F), db.memories[i]? = some m ∧
        db.embeddings[i]? = some row ∧ sm = Memory.into_scored m (dotF row q)) := by
  constructor
  · intro db q sm hload hemb hget
    obtain ⟨db', q', i, s, m, hload', hemb', hmax, hmem, hsm⟩ := get_ok_some_shape hget
    have hdb : db' = db := by
      rw [hload] at hload'
      exact (Outcome.ok.inj hload').symm
    subst hdb
    have hq : q' = q := by
      rw [hemb] at hemb'
      exact (Outcome.ok.inj hemb').symm
    subst hq
    obtain ⟨k, hk, hik, hsk⟩ := mem_enumIdx.mp (maxByLast_mem hmax)
    have hik' : i = k := by omega
    subst hik'
    have hrow : (db'.embeddings[i]?).map (fun row => dotF row q') = some s := by
      have hmap := List.getElem?_map (fun row => dotF row q') db'.embeddings i
      rw [← hmap]
      exact hsk
    obtain ⟨row, hrow', hdot⟩ := Option.map_eq_some'.mp hrow
    exact ⟨i, m, row, hmem, hrow', by rw [hsm, hdot]⟩
  · intro db q count out sm hload hemb hlist hsm
    obtain ⟨db', hload', hshape⟩ := list_ok_shape hlist
    have hdb : db = db' := by
      rw [hload] at hload'
      exact Outcome.ok.inj hload'
    subst hdb
    rcases hshape with ⟨_, rfl⟩ | ⟨_, q', hemb', _, hmap⟩
    · cases hsm
    · have hq : q = q' := by
        rw [hemb] at hemb'
        exact Outcome.ok.inj hemb'
      subst hq
      obtain ⟨p, hp, hps⟩ := mapOpt_mem hmap sm hsm
      have hpm : p ∈ rankedPairs db q := List.mem_of_mem_take hp
      have hpscore : (scoresOf db q)[p.2]? = some p.1 := mem_rankedPairs.mp hpm
      have hrow : (db.embeddings[p.2]?).map (fun row => dotF row q) = some p.1 := by
        have hmapl := List.getElem?_map (fun row => dotF row q) db.embeddings p.2
        rw [← hmapl]
        exact hpscore
      obtain ⟨row, hrow', hdot⟩ := Option.map_eq_some'.mp hrow
      obtain ⟨m, hm, hsmeq⟩ := scoredOf_eq_some hps
      exact ⟨p.2, m, row, hm, hrow', by rw [hsmeq, hdot]⟩

/-! Concrete inputs for counterexamples and witnesses.  All vectors have the
full `EMBEDDING_SIZE = 1536` entries (a leading value followed by zeros), so
dot products are evaluated through the lemmas below rather than by brute
kernel reduction. -/

lemma padVec_length (a : ℚ) : (padVec a).length = EMBEDDING_SIZE := by
  unfold padVec
  rw [List.length_cons, List.length_replicate]
  norm_num [EMBEDDING_SIZE]

lemma dotF_zero_pad (n : Nat) :
    dotF (List.replicate n (some 0)) (List.replicate n (some 0)) = some 0 := by
  induction n with
  | zero => rfl
  | succ k ih =>
    show fadd (fmul (some 0) (some 0)) (dotF (List.replicate k (some 0))
      (List.replicate k (some 0))) = some 0
    rw [ih]
    show fadd (some (0 * 0)) (some 0) = some 0
    norm_num [fadd]

lemma dotF_cons (x y : F) (xs ys : List F) :
    dotF (x :: xs) (y :: ys) = fadd (fmul x y) (dotF xs ys) := rfl

lemma dotF_padVec (a b : ℚ) : dotF (padVec a) (padVec b) = some (a * b) := by
  rw [show padVec a = some a :: List.replicate (EMBEDDING_SIZE - 1) (some 0) from rfl,
    show padVec b = some b :: List.replicate (EMBEDDING_SIZE - 1) (some 0) from rfl,
    dotF_cons, dotF_zero_pad]
  norm_num [fadd, fmul]

lemma embed_of_ok {f : EmbedFn} {d : String} {v : List F} (hf : f d = .ok v)
    (hlen : v.length = EMBEDDING_SIZE) : embed f d = .ok v := by
  unfold embed
  rw [hf]
  dsimp only
  rw [if_pos hlen]

/-- A provider sending every text to `[1, 0, …, 0]`. -/
def exF1 : EmbedFn := fun _ => .ok (padVec 1)

/-- A two-record collection whose rows both equal the query embedding of
`exF1`, so both scores tie. -/
def exDB1 : MemoryDB :=
  ⟨[⟨"a", "da"⟩, ⟨"b", "db"⟩], [padVec 1, padVec 1], EMBEDDING_SIZE⟩

lemma embed_exF1 (s : String) : embed exF1 s = .ok (padVec 1) :=
  embed_of_ok rfl (padVec_length 1)

lemma scoresOf_exDB1 : scoresOf exDB1 (padVec 1) = [some 1, some 1] := by
  show [dotF (padVec 1) (padVec 1), dotF (padVec 1) (padVec 1)] = [some 1, some 1]
  rw [dotF_padVec]
  norm_num

lemma exDB1_no_nan : ∀ s ∈ scoresOf exDB1 (padVec 1), s ≠ none := by
  intro s hs
  rw [scoresOf_exDB1] at hs
  simp at hs
  simp [hs]

lemma get_exDB1 :
    get exF1 (.data exDB1) "q" = .ok (some (Memory.into_scored ⟨"b", "db"⟩ (some 1))) := by
  rw [get_eval (show load_db (.data exDB1) = .ok exDB1 from rfl)
    (by simp [exDB1]) (embed_exF1 "q") (by rw [padVec_length]; rfl)]
  rw [rank_get_no_nan exDB1_no_nan]
  rw [show maxByLast (enumIdx 0 (scoresOf exDB1 (padVec 1))) = some (1, some 1) from by
    rw [scoresOf_exDB1]; decide]
  rfl

/-- A provider mapping the second description to a higher-scoring vector. -/
def exF3 : EmbedFn := fun s => if s = "db" then .ok (padVec 2) else .ok (padVec 1)

/-- The two inserted (memory, description) pairs of the concrete scenario. -/
def items3 : List (String × String) := [("a", "da"), ("b", "db")]

/-- The collection produced by inserting `items3` through `exF3`. -/
def exDB3 : MemoryDB :=
  ⟨[⟨"a", "da"⟩, ⟨"b", "db"⟩], [padVec 1, padVec 2], EMBEDDING_SIZE⟩

lemma exF3_q : exF3 "q" = .ok (padVec 1) := by
  unfold exF3
  rw [if_neg (by decide : ¬("q" = "db"))]

lemma exF3_da : exF3 "da" = .ok (padVec 1) := by
  unfold exF3
  rw [if_neg (by decide : ¬("da" = "db"))]

lemma exF3_db : exF3 "db" = .ok (padVec 2) := by
  unfold exF3
  rw [if_pos rfl]

lemma scoresOf_exDB3 : scoresOf exDB3 (padVec 1) = [some 1, some 2] := by
  show [dotF (padVec 1) (padVec 1), dotF (padVec 2) (padVec 1)] = [some 1, some 2]
  rw [dotF_padVec, dotF_padVec]
  norm_num

lemma exDB3_no_nan : ∀ s ∈ scoresOf exDB3 (padVec 1), s ≠ none := by
  intro s hs
  rw [scoresOf_exDB3] at hs
  simp at hs
  rcases hs with rfl | rfl <;> simp

lemma rankedPairs_exDB3 : rankedPairs exDB3 (padVec 1) = [(some 2, 1), (some 1, 0)] := by
  unfold rankedPairs pairsOf
  rw [scoresOf_exDB3]
  decide

lemma list_exDB3_two : list exF3 (.data exDB3) "q" 2 =
    .ok [Memory.into_scored ⟨"b", "db"⟩ (some 2),
         Memory.into_scored ⟨"a", "da"⟩ (some 1)] := by
  rw [list_eval (show load_db (.data exDB3) = .ok exDB3 from rfl) (by simp [exDB3])
    (embed_of_ok exF3_q (padVec_length 1)) (by rw [padVec_length]; rfl)]
  rw [rank_list_no_nan exDB3_no_nan, rankedPairs_exDB3]
  rfl

lemma list_exDB3_one : list exF3 (.data exDB3) "q" 1 =
    .ok [Memory.into_scored ⟨"b", "db"⟩ (some 2)] := by
  rw [list_eval (show load_db (.data exDB3) = .ok exDB3 from rfl) (by simp [exDB3])
    (embed_of_ok exF3_q (padVec_length 1)) (by rw [padVec_length]; rfl)]
  rw [rank_list_no_nan exDB3_no_nan, rankedPairs_exDB3]
  rfl

/-- Counterexample to claim C1 as stated: both rows of `exDB1` score
`some 1` against the query — an exact tie — so the first maximum in storage
order is row 0, the record `⟨"a", "da"⟩`; but `get` returns the record
`⟨"b", "db"⟩` of row 1, the LAST maximum (Rust's `max_by` keeps the later of
equal elements). -/
theorem C1_counterexample :
    scoresOf exDB1 (padVec 1) = [some 1, some 1] ∧
    embed exF1 "q" = .ok (padVec 1) ∧
    exDB1.memories[0]? = some ⟨"a", "da"⟩ ∧
    get exF1 (.data exDB1) "q" = .ok (some (Memory.into_scored ⟨"b", "db"⟩ (some 1))) ∧
    Memory.into_scored ⟨"b", "db"⟩ (some 1) ≠ Memory.into_scored ⟨"a", "da"⟩ (some 1) :=
  ⟨scoresOf_exDB1, embed_exF1 "q", rfl, get_exDB1, by decide⟩

/-- Witness for the amended claim C1 at the concrete tied collection. -/
theorem C1_witness :
    ∃ (i : Nat) (v : F), (scoresOf exDB1 (padVec 1))[i]? = some v ∧
      (∃ m, exDB1.memories[i]? = some m ∧
        get exF1 (.data exDB1) "q" = .ok (some (Memory.into_scored m v))) ∧
      (∀ (j : Nat) (w : F), (scoresOf exDB1 (padVec 1))[j]? = some w → fgt w v = false) ∧
      (∀ (j : Nat) (w : F), (scoresOf exDB1 (padVec 1))[j]? = some w → w = v → j ≤ i) :=
  C1_get_returns_last_max exF1 exDB1 "q" (padVec 1) (embed_exF1 "q")
    (by rw [padVec_length]; rfl) rfl (by simp [exDB1]) exDB1_no_nan

/-- Witness for claim C2 at a concrete two-record collection. -/
theorem C2_witness :
    (rankedPairs exDB3 (padVec 1)).Pairwise rankLE ∧
    mapOpt (scoredOf exDB3) ((rankedPairs exDB3 (padVec 1)).take 2) =
      some [Memory.into_scored ⟨"b", "db"⟩ (some 2),
            Memory.into_scored ⟨"a", "da"⟩ (some 1)] ∧
    ([Memory.into_scored ⟨"b", "db"⟩ (some 2),
      Memory.into_scored ⟨"a", "da"⟩ (some 1)].map fun sm => sm.score) =
      ((rankedPairs exDB3 (padVec 1)).take 2).map (fun p => p.1) :=
  C2_list_sorted_desc_stable_ties exF3 exDB3 "q" (padVec 1) 2 _
    (embed_of_ok exF3_q (padVec_length 1)) (by rw [padVec_length]; rfl) rfl
    list_exDB3_two

/-- Witness for claim C4 at the concrete collection, with counts 1 < 2. -/
theorem C4_witness :
    (∃ t, [Memory.into_scored ⟨"b", "db"⟩ (some 2),
           Memory.into_scored ⟨"a", "da"⟩ (some 1)] =
      [Memory.into_scored ⟨"b", "db"⟩ (some 2)] ++ t) ∧
    ((1 : Nat) = 0 → [Memory.into_scored ⟨"b", "db"⟩ (some 2)] = []) ∧
    (∀ db q, load_db (.data exDB3) = .ok db → embed exF3 "q" = .ok q →
      db.embeddings.length = db.memories.length → db.memories.length ≤ 1 →
      [Memory.into_scored ⟨"b", "db"⟩ (some 2)].length = db.memories.length ∧
      List.Perm ([Memory.into_scored ⟨"b", "db"⟩ (some 2)].map
        fun sm => Memory.mk sm.value sm.description) db.memories) :=
  C4_truncation_law exF3 (.data exDB3) "q" 1 2 _ _ list_exDB3_one list_exDB3_two
    (by omega)

/-- Witness for claim C10 at the concrete tied collection. -/
theorem C10_witness :
    (∃ r, get exF1 (.data exDB1) "q" = .ok r) ∧
    (∃ out, list exF1 (.data exDB1) "q" 5 = .ok out) :=
  C10_no_nan_no_ranking_panic exF1 (.data exDB1) "q" 5 exDB1 (padVec 1) rfl
    (embed_exF1 "q") (by rw [padVec_length]; rfl) rfl exDB1_no_nan

/-! The round-trip scenario: a sequence of inserts starting from an empty
file, followed by a reload and a `list` query. -/

/-- The vector a provider returns for a description (undefined, `[]`, when
the provider errors; only used under a hypothesis that it succeeds). -/
def embVec (f : EmbedFn) (d : String) : List F :=
  match f d with
  | .ok v => v
  | .error _ => []

/-- The database obtained by inserting `items` through provider `f` into an
initially empty store. -/
def dbOf (f : EmbedFn) (items : List (String × String)) : MemoryDB :=
  ⟨items.map fun pr => ⟨pr.1, pr.2⟩, items.map fun pr => embVec f pr.2, EMBEDDING_SIZE⟩

lemma insertSeq_cons (f : EmbedFn) (fs : FileContent) (m d : String)
    (rest : List (String × String)) :
    insertSeq f fs ((m, d) :: rest) =
      match insert f fs m d with
      | (fs', .ok _) => insertSeq f fs' rest
      | (fs', .err e) => (fs', .err e)
      | (fs', .panicked) => (fs', .panicked) := rfl

lemma insert_data_ok {f : EmbedFn} {db : MemoryDB} {m d : String} {v : List F}
    (hv : f d = .ok v) (hvlen : v.length = EMBEDDING_SIZE)
    (hcols : db.embCols = EMBEDDING_SIZE) :
    insert f (.data db) m d =
      (.data ⟨db.memories ++ [⟨m, d⟩], db.embeddings ++ [v], db.embCols⟩, .ok ()) := by
  unfold insert
  rw [show load_db (.data db) = .ok db from rfl]
  dsimp only
  rw [embed_of_ok hv hvlen]
  dsimp only
  rw [if_pos (by rw [hvlen, hcols])]
  rfl

lemma insertSeq_data_ok (f : EmbedFn) (items : List (String × String)) (db : MemoryDB)
    (hcols : db.embCols = EMBEDDING_SIZE)
    (hf : ∀ pr ∈ items, ∃ v, f pr.2 = .ok v ∧ v.length = EMBEDDING_SIZE) :
    insertSeq f (.data db) items =
      (.data ⟨db.memories ++ items.map (fun pr => ⟨pr.1, pr.2⟩),
              db.embeddings ++ items.map (fun pr => embVec f pr.2),
              db.embCols⟩, .ok ()) := by
  induction items generalizing db with
  | nil =>
    show (FileContent.data db, Outcome.ok ()) = _
    simp
  | cons pr rest ih =>
    obtain ⟨m, d⟩ := pr
    obtain ⟨v, hv, hvlen⟩ := hf (m, d) (List.mem_cons_self _ _)
    have hembv : embVec f d = v := by unfold embVec; rw [hv]
    rw [insertSeq_cons, insert_data_ok hv hvlen hcols]
    dsimp only
    rw [ih ⟨db.memories ++ [Memory.mk m d], db.embeddings ++ [v], db.embCols⟩ hcols
      (fun pr hpr => hf pr (List.mem_cons_of_mem _ hpr))]
    simp [hembv]

lemma insertSeq_empty_ok (f : EmbedFn) (items : List (String × String))
    (hf : ∀ pr ∈ items, ∃ v, f pr.2 = .ok v ∧ v.length = EMBEDDING_SIZE)
    (hne : items ≠ []) :
    insertSeq f .empty items = (.data (dbOf f items), .ok ()) := by
  cases items with
  | nil => exact absurd rfl hne
  | cons pr rest =>
    obtain ⟨m, d⟩ := pr
    obtain ⟨v, hv, hvlen⟩ := hf (m, d) (List.mem_cons_self _ _)
    have hembv : embVec f d = v := by unfold embVec; rw [hv]
    rw [insertSeq_cons]
    have hins : insert f .empty m d =
        (.data ⟨[⟨m, d⟩], [v], EMBEDDING_SIZE⟩, .ok ()) := by
      unfold insert
      rw [show load_db .empty = .ok ⟨[], [], EMBEDDING_SIZE⟩ from rfl]
      dsimp only
      rw [embed_of_ok hv hvlen]
      dsimp only
      rw [if_pos (by rw [hvlen])]
      rfl
    rw [hins]
    dsimp only
    rw [insertSeq_data_ok f rest ⟨[⟨m, d⟩], [v], EMBEDDING_SIZE⟩ rfl
      (fun pr hpr => hf pr (List.mem_cons_of_mem _ hpr))]
    unfold dbOf
    simp [hembv]

lemma rankLE_fgt_false {a b : F × Nat} (h : rankLE a b) : fgt b.1 a.1 = false := by
  rcases h with h | ⟨heq, _⟩
  · exact fgt_asymm h
  · rw [heq]
    exact fgt_self_false _

/-- Both `list` halves of the success argument: with no NaN score and a
well-formed loaded database, `list` returns successfully, and the output is
the materialized truncated ranking. -/
lemma list_ok_of_no_nan {f : EmbedFn} {fs : FileContent} {d : String} {count : Nat}
    {db : MemoryDB} {q : List F}
    (hload : load_db fs = .ok db) (hemb : embed f d = .ok q)
    (hcols : q.length = db.embCols)
    (hlen : db.embeddings.length = db.memories.length)
    (hnan : ∀ s ∈ scoresOf db q, s ≠ none) :
    ∃ out, list f fs d count = .ok out ∧
      mapOpt (scoredOf db) ((rankedPairs db q).take count) = some out := by
  by_cases hne : db.memories = []
  · have hemb0 : db.embeddings = [] := by
      rw [hne] at hlen
      exact List.length_eq_zero.mp hlen
    have hrp : rankedPairs db q = [] := by
      have hrl := @rankedPairs_length db q
      rw [show scoresOf db q = [] from by simp [scoresOf, hemb0]] at hrl
      exact List.length_eq_zero.mp (by simpa using hrl)
    refine ⟨[], ?_, ?_⟩
    · unfold list
      rw [hload]
      dsimp only
      rw [hne]
      rfl
    · rw [hrp, List.take_nil]
      rfl
  · rw [list_eval hload hne hemb hcols, rank_list_no_nan hnan]
    obtain ⟨out, hout⟩ : ∃ out,
        mapOpt (scoredOf db) ((rankedPairs db q).take count) = some out := by
      refine mapOpt_isSome ?_
      intro p hp
      have hpm : p ∈ rankedPairs db q := List.mem_of_mem_take hp
      have hps : (scoresOf db q)[p.2]? = some p.1 := mem_rankedPairs.mp hpm
      have hplt : p.2 < db.memories.length := by
        have hlt := (List.getElem?_eq_some_iff.mp hps).1
        rw [scoresOf_length] at hlt
        omega
      unfold scoredOf
      rw [List.getElem?_eq_getElem hplt]
      rfl
    rw [hout]
    exact ⟨out, rfl, rfl⟩

/-- Claim C3 (amended): for any sequence of successful `insert` calls
starting from an empty store, reloading and listing with `count` at least
the collection size returns exactly the inserted records — each (value,
description) pair once, text unchanged — in descending-score order (ties in
insertion order), which need not be the insertion order itself. -/
theorem C3_round_trip_all_records (f : EmbedFn) (items : List (String × String))
    (d : String) (q : List F) (count : Nat)
    (hf : ∀ pr ∈ items, ∃ v, f pr.2 = .ok v ∧ v.length = EMBEDDING_SIZE)
    (hq : embed f d = .ok q)
    (hcount : items.length ≤ count)
    (hnan : ∀ s ∈ scoresOf (dbOf f items) q, s ≠ none) :
    (insertSeq f .empty items).2 = .ok () ∧
    ∃ out, list f (insertSeq f .empty items).1 d count = .ok out ∧
      List.Perm (out.map fun sm => Memory.mk sm.value sm.description)
        (items.map fun pr => Memory.mk pr.1 pr.2) ∧
      (out.map fun sm => sm.score).Pairwise fun a b => fgt b a = false := by
  by_cases hitems : items = []
  · subst hitems
    refine ⟨rfl, [], rfl, by simp, by simp⟩
  · rw [insertSeq_empty_ok f items hf hitems]
    dsimp only
    have hlen : (dbOf f items).embeddings.length = (dbOf f items).memories.length := by
      simp [dbOf]
    have hcols : q.length = (dbOf f items).embCols := by
      rw [embed_ok_length hq]
      rfl
    obtain ⟨out, hlist, hmap⟩ := list_ok_of_no_nan
      (show load_db (.data (dbOf f items)) = .ok (dbOf f items) from rfl) hq hcols hlen hnan
    have hrplen : (rankedPairs (dbOf f items) q).length = items.length := by
      rw [rankedPairs_length, scoresOf_length]
      simp [dbOf]
    have htake : (rankedPairs (dbOf f items) q).take count = rankedPairs (dbOf f items) q :=
      List.take_of_length_le (by omega)
    rw [htake] at hmap
    refine ⟨rfl, out, hlist, ?_, ?_⟩
    · have hmapeq : out.map (fun sm => Memory.mk sm.value sm.description) =
          (rankedPairs (dbOf f items) q).map (memAt (dbOf f items)) :=
        mapOpt_map_eq (fun p sm hp => (scoredOf_memAt hp).1) hmap
      have hperm : List.Perm ((rankedPairs (dbOf f items) q).map (memAt (dbOf f items)))
          ((pairsOf (dbOf f items) q).map (memAt (dbOf f items))) :=
        (sortDesc_perm (pairsOf (dbOf f items) q)).map _
      rw [pairsOf_map_memAt hlen] at hperm
      rw [hmapeq]
      have hmems : (dbOf f items).memories = items.map fun pr => Memory.mk pr.1 pr.2 := rfl
      rw [hmems] at hperm
      exact hperm
    · have hscoreeq : out.map (fun sm => sm.score) =
          (rankedPairs (dbOf f items) q).map (fun p => p.1) :=
        mapOpt_map_eq (fun p sm hp => (scoredOf_memAt hp).2) hmap
      rw [hscoreeq]
      exact List.Pairwise.map _ (fun a b hab => rankLE_fgt_false hab)
        (rankedPairs_pairwise hnan)

lemma items3_embeds : ∀ pr ∈ items3, ∃ v, exF3 pr.2 = .ok v ∧ v.length = EMBEDDING_SIZE := by
  intro pr hpr
  rw [show items3 = [("a", "da"), ("b", "db")] from rfl] at hpr
  rcases List.mem_cons.mp hpr with rfl | hpr'
  · exact ⟨padVec 1, exF3_da, padVec_length 1⟩
  · rcases List.mem_cons.mp hpr' with rfl | hpr''
    · exact ⟨padVec 2, exF3_db, padVec_length 2⟩
    · cases hpr''

lemma dbOf_exF3 : dbOf exF3 items3 = exDB3 := by
  unfold dbOf items3 exDB3
  simp [embVec, exF3_da, exF3_db]

/-- Counterexample to claim C3 as stated: insert `("a", "da")` then
`("b", "db")` from an empty store through `exF3`; reloading and listing with
`count = 2` (the collection size) returns the records in descending-score
order `["b", "a"]`, not the insertion order `["a", "b"]`. -/
theorem C3_counterexample :
    insertSeq exF3 .empty items3 = (.data exDB3, .ok ()) ∧
    list exF3 (.data exDB3) "q" 2 =
      .ok [Memory.into_scored ⟨"b", "db"⟩ (some 2),
           Memory.into_scored ⟨"a", "da"⟩ (some 1)] ∧
    items3.map (fun pr => pr.1) = ["a", "b"] ∧
    ([Memory.into_scored ⟨"b", "db"⟩ (some 2),
      Memory.into_scored ⟨"a", "da"⟩ (some 1)].map fun sm => sm.value) = ["b", "a"] := by
  refine ⟨?_, list_exDB3_two, rfl, rfl⟩
  rw [insertSeq_empty_ok exF3 items3 items3_embeds (by rw [show items3 = [("a", "da"), ("b", "db")] from rfl]; simp)]
  rw [dbOf_exF3]

/-- Witness for the amended claim C3 at the concrete scenario. -/
theorem C3_witness :
    (insertSeq exF3 .empty items3).2 = .ok () ∧
    ∃ out, list exF3 (insertSeq exF3 .empty items3).1 "q" 2 = .ok out ∧
      List.Perm (out.map fun sm => Memory.mk sm.value sm.description)
        (items3.map fun pr => Memory.mk pr.1 pr.2) ∧
      (out.map fun sm => sm.score).Pairwise fun a b => fgt b a = false :=
  C3_round_trip_all_records exF3 items3 "q" (padVec 1) 2 items3_embeds
    (embed_of_ok exF3_q (padVec_length 1)) (by rw [show items3 = [("a", "da"), ("b", "db")] from rfl]; simp)
    (by rw [dbOf_exF3]; exact exDB3_no_nan)

end Mem
